import Mathlib

/-!
Shallow embedding of the scripture query service (cpuchip/scriptures-mcp).

The embedding models the Go sources:
* `internal/scripture/service.go` — the current service: corpus loader
  (`parseAndStore`), filtered search (`performSearchWithFilters`),
  reference parsers (`parseReference`, `parseChapterReference`), exact
  lookup (`getScripturesByReference`, `getChapter`) and term counting
  (`countTerms`).
* the historical enhanced service (fuzzy search): `performSearch`,
  `performExactSearch`, `performFuzzySearch` with
  `fuzzy.LevenshteinDistance` from lithammer/fuzzysearch.

Modelling conventions:
* Go strings are `List Char` (`Str`); `strings.ToLower` is modelled
  character-wise on the ASCII range by `Char.toLower`.
* Go maps are association lists; map iteration order is the list order
  (Go's map order is unspecified, so theorems quantify over it).
* Go `int` is `Int`; chapter/verse numbers and limits are `Int`.
* Fallible parsing returns `Option` (Go `(x, error)`).
-/

namespace Scriptures

/-- Go strings, modelled as lists of characters. -/
abbrev Str := List Char

/-- Coerce a Lean string literal to the `Str` model. -/
def str (s : String) : Str := s.toList

/-- `strings.ToLower`, modelled character-wise (ASCII case folding). -/
def toLowerStr (s : Str) : Str := s.map Char.toLower

/-- `unicode.IsSpace` restricted to the ASCII range
(used by `strings.TrimSpace` and `strings.Fields`). -/
def isGoSpace (c : Char) : Bool :=
  c = ' ' || c = '\t' || c = '\n' || c = '\x0b' || c = '\x0c' || c = '\r'

/-- The RE2 character class `\s` = `[\t\n\f\r ]`. -/
def isRegexSpace (c : Char) : Bool :=
  c = ' ' || c = '\t' || c = '\n' || c = '\x0c' || c = '\r'

/-- The RE2 character class `\d` = `[0-9]`. -/
def isDigitCh (c : Char) : Bool := '0' ≤ c && c ≤ '9'

/-- `strings.TrimSpace`: drop leading and trailing whitespace. -/
def trimSpace (s : Str) : Str :=
  ((s.dropWhile isGoSpace).reverse.dropWhile isGoSpace).reverse

/-- `strings.Trim(s, cutset)` for a single-character cutset:
drop leading and trailing occurrences of `c`. -/
def trimChar (c : Char) (s : Str) : Str :=
  ((s.dropWhile (· = c)).reverse.dropWhile (· = c)).reverse

/-- `strings.Contains h n`: `n` occurs as a contiguous substring of `h`. -/
def containsSub : Str → Str → Bool
  | [], n => n.isEmpty
  | c :: t, n => n.isPrefixOf (c :: t) || containsSub t n

/-- `strings.EqualFold` (ASCII case folding). -/
def eqFold (a b : Str) : Bool := toLowerStr a == toLowerStr b

/-- Accumulator worker for `fieldsBy` (`acc` holds the current field,
reversed). -/
def fieldsByAux (p : Char → Bool) : Str → Str → List Str
  | acc, [] => if acc.isEmpty then [] else [acc.reverse]
  | acc, c :: rest =>
    if p c then
      if acc.isEmpty then fieldsByAux p [] rest
      else acc.reverse :: fieldsByAux p [] rest
    else fieldsByAux p (c :: acc) rest

/-- `strings.FieldsFunc`: split at characters satisfying `p`,
discarding empty fields. -/
def fieldsBy (p : Char → Bool) (s : Str) : List Str := fieldsByAux p [] s

/-- `strings.Fields`: split at whitespace. -/
def fields (s : Str) : List Str := fieldsBy isGoSpace s

/-- A scripture verse (`Scripture` struct in service.go). -/
structure Scripture where
  book : Str
  collection : Str
  chapter : Int
  verse : Int
  text : Str
  reference : Str
deriving DecidableEq

/-- The service state: `scriptures` maps book name to its verses,
`collections` maps collection name to its book names. Go maps are
modelled as association lists whose order stands for the (unspecified)
Go map iteration order. -/
structure Service where
  scriptures : List (Str × List Scripture)
  collections : List (Str × List Str)
deriving DecidableEq

/-- Go map read `m[k]` returning `(value, ok)`. -/
def mapLookup (m : List (Str × α)) (k : Str) : Option α :=
  (m.find? (fun p => p.1 == k)).map Prod.snd

/-- The verses stored under book key `b` (empty when the key is absent). -/
def storeVerses (s : Service) (b : Str) : List Scripture :=
  (mapLookup s.scriptures b).getD []

/-- The sort key used by the final `sort.Slice` in
`performSearchWithFilters`: the lexicographic tuple
(collection, book, chapter, verse). -/
def searchKey (v : Scripture) : Lex (Str × Lex (Str × Lex (Int × Int))) :=
  toLex (v.collection, toLex (v.book, toLex (v.chapter, v.verse)))

/-- Result ordering of the final sort: lexicographic
`(collection, book, chapter, verse)`. `sort.Slice` is an unstable sort
with the strict version of this relation; its output is some permutation
sorted by `scripLE`, which we model with `List.insertionSort scripLE`. -/
def scripLE (a b : Scripture) : Prop := searchKey a ≤ searchKey b

instance : DecidableRel scripLE :=
  fun a b => inferInstanceAs (Decidable (searchKey a ≤ searchKey b))

instance : IsTotal Scripture scripLE :=
  ⟨fun a b => le_total (searchKey a) (searchKey b)⟩

instance : IsTrans Scripture scripLE :=
  ⟨fun _ _ _ hab hbc => le_trans hab hbc⟩

/-- The book visiting order of `performSearchWithFilters`:
the named book when the `book` filter is set (and present in the store),
else the filtered collection's book list, else all book keys in sorted
order (`sort.Strings`). -/
def searchOrder (s : Service) (book collection : Str) : List Str :=
  if book ≠ [] then
    if (mapLookup s.scriptures book).isSome then [book] else []
  else if collection ≠ [] then
    match s.collections.find?
        (fun p => toLowerStr p.1 == toLowerStr collection) with
    | some p => p.2
    | none => []
  else
    List.insertionSort (· ≤ ·) (s.scriptures.map Prod.fst)

/-- The verses scanned by `performSearchWithFilters`, in scan order. -/
def scanList (s : Service) (book collection : Str) : List Scripture :=
  (searchOrder s book collection).flatMap (storeVerses s)

/-- The per-verse test of the scan loop of `performSearchWithFilters`:
both filter `continue`s plus the substring match of lowercased text or
lowercased book name against the lowercased query. -/
def searchKeep (q book collection : Str) (v : Scripture) : Bool :=
  (book == [] || eqFold v.book book) &&
  (collection == [] || eqFold v.collection collection) &&
  (containsSub (toLowerStr v.text) (toLowerStr q) ||
   containsSub (toLowerStr v.book) (toLowerStr q))

/-- The scan loop: append each kept verse, and as soon as
`len(results) >= limit` holds after an append, return early (flag
`true`). Flag `false` means the scan ran to completion. -/
def searchScan (keep : Scripture → Bool) (limit : Int) :
    List Scripture → List Scripture → List Scripture × Bool
  | acc, [] => (acc, false)
  | acc, v :: rest =>
    if keep v then
      let acc2 := acc ++ [v]
      if (acc2.length : Int) ≥ limit then (acc2, true)
      else searchScan keep limit acc2 rest
    else searchScan keep limit acc rest

/-- `performSearchWithFilters` (service.go): scan in order with early
return at the limit; the final `sort.Slice` by
(collection, book, chapter, verse) runs only when the scan completes. -/
def performSearchWithFilters (s : Service) (q : Str) (limit : Int)
    (book collection : Str) : List Scripture :=
  match searchScan (searchKeep q book collection) limit []
      (scanList s book collection) with
  | (res, true) => res
  | (res, false) => List.insertionSort scripLE res

/-- The list of verses the scan keeps, in scan order (all matches). -/
def searchMatches (s : Service) (q : Str) (book collection : Str) :
    List Scripture :=
  (scanList s book collection).filter (searchKeep q book collection)

/-! ### Corpus loader (`parseAndStore` and the document wire format) -/

/-- A verse leaf of the document wire format. -/
structure VerseData where
  verse : Int
  text : Str
  reference : Str
deriving DecidableEq

/-- A chapter of the document wire format. -/
structure ChapterData where
  chapter : Int
  verses : List VerseData
deriving DecidableEq

/-- A book group of the document wire format. -/
structure BookData where
  book : Str
  chapters : List ChapterData
deriving DecidableEq

/-- A decoded document blob (`ScriptureData` in service.go). -/
structure ScriptureData where
  books : List BookData
deriving DecidableEq

/-- `getCollectionName`: derive the collection display name from the
source filename. -/
def getCollectionName (filename : Str) : Str :=
  if containsSub filename (str "book-of-mormon") then str "Book of Mormon"
  else if containsSub filename (str "doctrine-and-covenants") then
    str "Doctrine and Covenants"
  else if containsSub filename (str "pearl-of-great-price") then
    str "Pearl of Great Price"
  else if containsSub filename (str "old-testament") then str "Old Testament"
  else if containsSub filename (str "new-testament") then str "New Testament"
  else str "Unknown"

/-- Go `m[k] = append(m[k], v)` on the verse store. -/
def storeAppend (m : List (Str × List Scripture)) (k : Str) (v : Scripture) :
    List (Str × List Scripture) :=
  if m.any (fun p => p.1 == k) then
    m.map (fun p => if p.1 == k then (p.1, p.2 ++ [v]) else p)
  else m ++ [(k, [v])]

/-- Go map write `m[k] = v` (insert or overwrite). -/
def mapSet (m : List (Str × α)) (k : Str) (v : α) : List (Str × α) :=
  if m.any (fun p => p.1 == k) then
    m.map (fun p => if p.1 == k then (p.1, v) else p)
  else m ++ [(k, v)]

/-- The `Scripture` record built for one verse leaf in `parseAndStore`. -/
def verseToScripture (bookName col : Str) (chNum : Int) (vd : VerseData) :
    Scripture :=
  ⟨bookName, col, chNum, vd.verse, vd.text, vd.reference⟩

/-- `parseAndStore` on an already-decoded document: append every verse of
every book group to the verse store, then register the document's full
book-name list as the collection's entry (overwriting a prior entry). -/
def parseAndStore (s : Service) (d : ScriptureData) (label : Str) : Service :=
  let col := getCollectionName label
  let st := d.books.foldl (fun m bk =>
    bk.chapters.foldl (fun m2 ch =>
      ch.verses.foldl (fun m3 vd =>
        storeAppend m3 bk.book
          (verseToScripture bk.book col ch.chapter vd)) m2) m) s.scriptures
  ⟨st, mapSet s.collections col (d.books.map BookData.book)⟩

/-- The freshly constructed service before loading. -/
def emptyService : Service := ⟨[], []⟩

/-- Load a sequence of labeled document blobs in order. A blob that fails
JSON decoding is modelled as `none`: it is skipped with a warning and
loading continues (MalformedDocument is non-fatal). -/
def loadDocuments (docs : List (Str × Option ScriptureData)) : Service :=
  docs.foldl (fun s p =>
    match p.2 with
    | some d => parseAndStore s d p.1
    | none => s) emptyService

/-! ### Reference parsers -/

/-- A parsed scripture reference (`ScriptureReference` struct). A bare
chapter reference leaves `verse`/`endVerse` at their zero values. -/
structure ScriptureReference where
  book : Str
  chapter : Int
  verse : Int
  endVerse : Int
deriving DecidableEq

/-- `strconv.Atoi` on a nonempty decimal digit run (overflow of Go `int`
is not modelled; the grammar only admits digit runs). -/
def atoi (d : Str) : Int :=
  d.foldl (fun n c => n * 10 + ((c.toNat : Int) - ('0'.toNat : Int))) 0

/-- Match the anchored tail `(\d+):(\d+)(?:-(\d+))?$` of the verse-reference
regex against `u`, returning (chapter, verse, endVerse). The digit runs are
forced maximal: a shorter `(\d+)` leaves a digit where `:`, `-` or the end
of input is required. When the range suffix is absent, endVerse = verse. -/
def verseTail (u : Str) : Option (Int × Int × Int) :=
  let c := u.takeWhile isDigitCh
  if c.isEmpty then none else
  match u.drop c.length with
  | ':' :: u3 =>
    let v := u3.takeWhile isDigitCh
    if v.isEmpty then none else
    match u3.drop v.length with
    | [] => some (atoi c, atoi v, atoi v)
    | '-' :: e =>
      if !e.isEmpty && e.all isDigitCh then some (atoi c, atoi v, atoi e)
      else none
    | _ => none
  | _ => none

/-- `parseReference`: `regexp ^(.+?)\s+(\d+):(\d+)(?:-(\d+))?$` applied to
the `TrimSpace`d input; `none` models the InvalidReference error. The lazy
`(.+?)` takes the shortest nonempty prefix (free of newline, which `.` does
not match) such that the rest of the pattern matches; for a fixed prefix
the `\s+` run is forced maximal because `(\d+)` must start with a digit.
The captured book name is `TrimSpace`d again. -/
def parseReference (reference : Str) : Option ScriptureReference :=
  let t := trimSpace reference
  (List.range t.length).findSome? (fun i =>
    if i = 0 then none else
    if (t.take i).any (· = '\n') then none else
    let rest := t.drop i
    let w := rest.takeWhile isRegexSpace
    if w.isEmpty then none else
    (verseTail (rest.drop w.length)).map (fun p =>
      ⟨trimSpace (t.take i), p.1, p.2.1, p.2.2⟩))

/-- `parseChapterReference`: `regexp ^(.+?)\s+(\d+)$` applied to the
`TrimSpace`d input; `none` models the InvalidReference error. Same
matching discipline as `parseReference`; the trailing `(\d+)$` forces the
whole remainder after the whitespace run to be digits. -/
def parseChapterReference (reference : Str) : Option ScriptureReference :=
  let t := trimSpace reference
  (List.range t.length).findSome? (fun i =>
    if i = 0 then none else
    if (t.take i).any (· = '\n') then none else
    let rest := t.drop i
    let w := rest.takeWhile isRegexSpace
    let d := rest.drop w.length
    if w.isEmpty || d.isEmpty || !(d.all isDigitCh) then none
    else some ⟨trimSpace (t.take i), atoi d, 0, 0⟩)

/-! ### Exact lookup engine -/

/-- `getScripturesByReference`: all verses of the named book whose chapter
matches and whose verse number lies in `[verse, endVerse]`. -/
def getScripturesByReference (s : Service) (ref : ScriptureReference) :
    List Scripture :=
  (storeVerses s ref.book).filter (fun v =>
    v.chapter == ref.chapter && ref.verse ≤ v.verse && v.verse ≤ ref.endVerse)

/-- `getChapter`: all verses of the named book with the given chapter. -/
def getChapter (s : Service) (book : Str) (chapter : Int) : List Scripture :=
  (storeVerses s book).filter (fun v => v.chapter == chapter)

/-! ### Levenshtein distance (`fuzzy.LevenshteinDistance`) -/

/-- Inner loop of `fuzzy.LevenshteinDistance`: update one column cell per
character of `s`, threading `lastkey` (the old diagonal value) and the
previous new cell. -/
def levWork (c2 : Char) : Str → List Nat → Nat → Nat → List Nat
  | c1 :: s1, oldv :: oldRest, lastkey, prevNew =>
    let incr := if c1 = c2 then 0 else 1
    let newv := min (oldv + 1) (min (prevNew + 1) (lastkey + incr))
    newv :: levWork c2 s1 oldRest oldv newv
  | _, _, _, _ => []

/-- One outer iteration of `fuzzy.LevenshteinDistance` (column update for
the `x`-th character `c2` of `t`); the old `column[0]` equals `x - 1`,
which is the initial `lastkey`. -/
def levCol (s : Str) (c2 : Char) (x : Nat) : List Nat → List Nat
  | c0 :: rest => x :: levWork c2 s rest c0 x
  | [] => []

/-- `fuzzy.LevenshteinDistance s t`: the unit-cost Levenshtein distance,
computed by the same column-sweep dynamic program as the Go library. -/
def lev (s t : Str) : Nat :=
  ((t.foldl (fun p c2 => (levCol s c2 (p.2 + 1) p.1, p.2 + 1))
      (List.range (s.length + 1), 0)).1).getLast?.getD 0

/-! ### Fuzzy search (historical enhanced service) -/

/-- The per-verse fuzzy score of `performFuzzySearch`: starting from the
high value `len(query) + len(text)`, take the minimum Levenshtein distance
from the lowercased query to each whitespace-delimited word of the
lowercased text, then also to the lowercased book name. -/
def fuzzyScore (ql : Str) (v : Scripture) : Nat :=
  let textLower := toLowerStr v.text
  let bestW := (fields textLower).foldl (fun best w => min best (lev ql w))
    (ql.length + textLower.length)
  min bestW (lev ql (toLowerStr v.book))

/-- The length-adaptive distance threshold of `performFuzzySearch`
(only consulted when `len(queryLower) > 3`). -/
def maxDistance (ql : Str) : Nat := if ql.length > 5 then 2 else 1

/-- The candidate collection of `performFuzzySearch`: empty for queries of
length ≤ 3; otherwise every scanned verse whose score is strictly positive
and within the threshold, paired with its score, in scan order. -/
def fuzzyCandidates (q : Str) (verses : List Scripture) :
    List (Scripture × Nat) :=
  let ql := toLowerStr q
  if ql.length ≤ 3 then []
  else verses.filterMap (fun v =>
    let sc := fuzzyScore ql v
    if 0 < sc ∧ sc ≤ maxDistance ql then some (v, sc) else none)

/-- Inner loop of the exchange sort in `performFuzzySearch` for a fixed
position `i`: scan the later positions, swapping whenever the holder's
score exceeds the visited score. Returns the final holder of position `i`
and the final contents of the later positions. -/
def selectMin : α × Nat → List (α × Nat) → (α × Nat) × List (α × Nat)
  | x, [] => (x, [])
  | x, y :: ys =>
    if x.2 > y.2 then
      let p := selectMin y ys
      (p.1, x :: p.2)
    else
      let p := selectMin x ys
      (p.1, y :: p.2)

/-- Outer loop of the exchange sort, fuelled by the list length. -/
def selSortAux : Nat → List (α × Nat) → List (α × Nat)
  | 0, l => l
  | _ + 1, [] => []
  | fuel + 1, x :: xs =>
    let p := selectMin x xs
    p.1 :: selSortAux fuel p.2

/-- The score sort of `performFuzzySearch` (the imperative double loop
swapping out-of-order pairs). -/
def selSort (l : List (α × Nat)) : List (α × Nat) := selSortAux l.length l

/-- `performFuzzySearch`: sort the candidates by score and keep at most
`limit` of them. -/
def performFuzzySearch (q : Str) (limit : Int) (verses : List Scripture) :
    List Scripture :=
  ((selSort (fuzzyCandidates q verses)).take limit.toNat).map Prod.fst

/-- `performExactSearch` of the historical enhanced service: the plain
substring scan with early return at the limit, over the verses in map
iteration order (no final sort in that version). -/
def performExactSearch (queryLower : Str) (limit : Int)
    (verses : List Scripture) : List Scripture :=
  (searchScan (fun v =>
    containsSub (toLowerStr v.text) queryLower ||
    containsSub (toLowerStr v.book) queryLower) limit [] verses).1

/-- The fuzzy-result merge loop of the historical `performSearch`: append
each fuzzy result whose reference is not already present, stopping at the
limit. -/
def mergeFuzzy (limit : Int) : List Scripture → List Scripture → List Scripture
  | acc, [] => acc
  | acc, f :: fs =>
    if acc.any (fun e => e.reference == f.reference) then
      mergeFuzzy limit acc fs
    else
      let acc2 := acc ++ [f]
      if (acc2.length : Int) ≥ limit then acc2
      else mergeFuzzy limit acc2 fs

/-- The historical `performSearch`: exact pass first; if it fills the
limit return its first `limit` entries, otherwise top up with
deduplicated fuzzy results. -/
def performSearch (q : Str) (limit : Int) (verses : List Scripture) :
    List Scripture :=
  let exact := performExactSearch (toLowerStr q) limit verses
  if (exact.length : Int) ≥ limit then exact.take limit.toNat
  else mergeFuzzy limit exact (performFuzzySearch q (limit - exact.length) verses)

/-! ### Term counter (`countTerms`) -/

/-- The fixed stop-word list of `countTerms`. -/
def commonWords : List Str :=
  [str "a", str "an", str "and", str "are", str "as", str "at", str "be",
   str "by", str "for", str "from", str "has", str "he", str "in", str "is",
   str "it", str "its", str "of", str "on", str "that", str "the", str "to",
   str "was", str "will", str "with", str "his", str "her", str "him",
   str "she", str "they", str "their", str "them", str "this", str "these",
   str "those", str "have"]

/-- Membership in the stop-word set (`commonWords[word]` in Go). -/
def isCommonWord (w : Str) : Bool := commonWords.any (· == w)

/-- The token separator of `countTerms`: any character that is not an
ASCII letter, digit or apostrophe. -/
def isTokenSep (r : Char) : Bool :=
  !(('a' ≤ r && r ≤ 'z') || ('A' ≤ r && r ≤ 'Z') ||
    ('0' ≤ r && r ≤ '9') || r = '\'')

/-- Tokenize one verse text as `countTerms` does: lowercase, then split at
separator characters. -/
def tokenize (text : Str) : List Str := fieldsBy isTokenSep (toLowerStr text)

/-- Per-token normalization of `countTerms`: trim apostrophes, lowercase. -/
def normalizeToken (w : Str) : Str := toLowerStr (trimChar '\'' w)

/-- The books scanned by `countTerms` (book filter > collection filter >
every book key; unlike search, the book filter is not checked for
existence and the whole-store order is not sorted). -/
def countBooks (s : Service) (book collection : Str) : List Str :=
  if book ≠ [] then [book]
  else if collection ≠ [] then
    match s.collections.find?
        (fun p => toLowerStr p.1 == toLowerStr collection) with
    | some p => p.2
    | none => []
  else s.scriptures.map Prod.fst

/-- The verses scanned by `countTerms` under the given filters. -/
def scopedVerses (s : Service) (book collection : Str) : List Scripture :=
  (countBooks s book collection).flatMap (storeVerses s)

/-- Process one normalized token: skip stop words when `ignoreCommon`;
otherwise increment the count of every requested term equal to the token.
The Go counts map is modelled as a total function with default 0 (its keys
are exactly the lowercased terms, and only those keys are ever read). -/
def countStep (terms : List Str) (ignoreCommon : Bool) (counts : Str → Nat)
    (w : Str) : Str → Nat :=
  if ignoreCommon && isCommonWord w then counts
  else terms.foldl (fun cs term =>
    if w == toLowerStr term then
      fun k => if k == toLowerStr term then cs k + 1 else cs k
    else cs) counts

/-- The counting core shared by the scoped variants: fold `countStep` over
every normalized token of every given verse (the flattening of the Go
nested loops). -/
def countTokens (verses : List Scripture) (terms : List Str)
    (ignoreCommon : Bool) : Str → Nat :=
  (verses.flatMap (fun v => (tokenize v.text).map normalizeToken)).foldl
    (countStep terms ignoreCommon) (fun _ => 0)

/-- `countTerms`: count term occurrences over the filtered scope. -/
def countTerms (s : Service) (terms : List Str) (book collection : Str)
    (ignoreCommon : Bool) : Str → Nat :=
  countTokens (scopedVerses s book collection) terms ignoreCommon

/-- Modelled from the spec: `countTermsWithReference`, the chapter-scoped
variant of the term counter, is absent from the provided sources (only its
tests call it). Per the spec, `count_terms` takes an optional `reference`;
when a chapter reference is supplied, the scanned verses are restricted to
the single chapter obtained by parsing the reference and retrieving that
chapter via the Exact Lookup Engine's chapter retrieval (`getChapter`),
reusing the same tokenization and counting logic; an unparsable reference
is a validation failure (`none`). -/
def countTermsWithReference (s : Service) (terms : List Str)
    (book collection reference : Str) (ignoreCommon : Bool) :
    Option (Str → Nat) :=
  if reference ≠ [] then
    match parseChapterReference reference with
    | none => none
    | some ref => some (countTokens (getChapter s ref.book ref.chapter)
        terms ignoreCommon)
  else some (countTerms s terms book collection ignoreCommon)

/-! ### Concrete fixtures and spec-side definitions -/

/-- A small concrete store (mirroring the repository's test fixtures):
two books in two collections. -/
def svcWit : Service :=
  ⟨[(str "1 Nephi",
     [⟨str "1 Nephi", str "Book of Mormon", 3, 7,
       str "I will go and do the things which the Lord hath commanded",
       str "1 Nephi 3:7"⟩,
      ⟨str "1 Nephi", str "Book of Mormon", 3, 8,
       str "and he knew that I had been blessed of the Lord",
       str "1 Nephi 3:8"⟩]),
    (str "John",
     [⟨str "John", str "New Testament", 3, 16,
       str "For God so loved the world", str "John 3:16"⟩])],
   [(str "Book of Mormon", [str "1 Nephi"]),
    (str "New Testament", [str "John"])]⟩

/-- A document whose single book stores chapter 2 before chapter 1
(source-document order; the loader preserves it). -/
def c1Doc : ScriptureData :=
  ⟨[⟨str "B",
     [⟨2, [⟨1, str "xx hello", str "B 2:1"⟩]⟩,
      ⟨1, [⟨1, str "hello yy", str "B 1:1"⟩]⟩]⟩]⟩

/-- The store loaded from `c1Doc`. -/
def c1Svc : Service := loadDocuments [(str "new-testament.json", some c1Doc)]

/-- A document in which the same verse (same reference) appears twice;
the loader appends both occurrences to the store. -/
def c4Doc : ScriptureData :=
  ⟨[⟨str "B",
     [⟨1, [⟨1, str "hello", str "B 1:1"⟩, ⟨1, str "hello", str "B 1:1"⟩]⟩]⟩]⟩

/-- The store loaded from `c4Doc`. -/
def c4Svc : Service := loadDocuments [(str "book-of-mormon.json", some c4Doc)]

/-- Store well-formedness: every stored verse's `book` field equals its
store key (the loader constructs verses this way). -/
def storeWF (s : Service) : Bool :=
  s.scriptures.all (fun p => p.2.all (fun v => v.book == p.1))

/-- The fuzzy score as the spec words it: the minimum over the edit
distance from the lowercased query to each whitespace-delimited word of
the lowercased verse text and to the lowercased book name. -/
def specFuzzyScore (q : Str) (v : Scripture) : Nat :=
  ((fields (toLowerStr v.text)).map (lev (toLowerStr q))).foldl min
    (lev (toLowerStr q) (toLowerStr v.book))

/-- The spec's length-adaptive threshold: 0 for query length ≤ 3 (no verse
qualifies), 1 for lengths 4–5, 2 for lengths greater than 5. -/
def specThreshold (n : Nat) : Nat :=
  if n ≤ 3 then 0 else if n ≤ 5 then 1 else 2

/-- The stability property claimed of the candidate sort: of two
candidates with equal scores, the one encountered earlier in the scan
appears no later in the sorted list. -/
def stableForTies (cands sorted : List (Scripture × Nat)) : Prop :=
  ∀ i j : Fin cands.length, i < j → (cands.get i).2 = (cands.get j).2 →
    sorted.indexOf (cands.get i) ≤ sorted.indexOf (cands.get j)

instance (cands sorted : List (Scripture × Nat)) :
    Decidable (stableForTies cands sorted) := by
  unfold stableForTies
  infer_instance

/-- Fuzzy fixture: scanned first, score 2 for query "abcdef". -/
def c5v1 : Scripture :=
  ⟨str "Bk", str "Unknown", 1, 1, str "abcdzz", str "Bk 1:1"⟩

/-- Fuzzy fixture: scanned second, score 2 for query "abcdef". -/
def c5v2 : Scripture :=
  ⟨str "Bk", str "Unknown", 1, 2, str "abcdqq", str "Bk 1:2"⟩

/-- Fuzzy fixture: scanned third, score 1 for query "abcdef". -/
def c5v3 : Scripture :=
  ⟨str "Bk", str "Unknown", 1, 3, str "abcdez", str "Bk 1:3"⟩

/-- The (book key, verse) pairs a document contributes, in loader order. -/
def flatVerses (d : ScriptureData) (col : Str) : List (Str × Scripture) :=
  d.books.flatMap (fun bk => bk.chapters.flatMap (fun ch =>
    ch.verses.map (fun vd => (bk.book, verseToScripture bk.book col ch.chapter vd))))

/-- Append a sequence of (key, verse) pairs to the store. -/
def storeFold (m : List (Str × List Scripture))
    (l : List (Str × Scripture)) : List (Str × List Scripture) :=
  l.foldl (fun m2 p => storeAppend m2 p.1 p.2) m

/-- The store has a nonempty entry for key `b`. -/
def entryNonempty (m : List (Str × List Scripture)) (b : Str) : Prop :=
  ∃ vs, mapLookup m b = some vs ∧ vs ≠ []

/-- Mutual consistency of Collection Index and Verse Store: every book
named in a collection entry has a nonempty store entry, and every store
key appears in some collection entry. -/
def consistentState (s : Service) : Prop :=
  (∀ c bks, (c, bks) ∈ s.collections → ∀ b ∈ bks,
    entryNonempty s.scriptures b) ∧
  (∀ b vs, (b, vs) ∈ s.scriptures →
    ∃ c bks, (c, bks) ∈ s.collections ∧ b ∈ bks)

/-- A book group that carries at least one verse. -/
def bookHasVerse (bk : BookData) : Bool :=
  bk.chapters.any (fun ch => !ch.verses.isEmpty)

/-- Every decoded document's books all carry at least one verse. -/
def docsWF (docs : List (Str × Option ScriptureData)) : Bool :=
  docs.all (fun p => match p.2 with
    | none => true
    | some d => d.books.all bookHasVerse)

/-- The collection names the decoded documents register, in order. -/
def docCollections (docs : List (Str × Option ScriptureData)) : List Str :=
  docs.filterMap (fun p => p.2.map (fun _ => getCollectionName p.1))

/-- A document whose single book has no chapters (and hence no verses). -/
def c7Doc : ScriptureData := ⟨[⟨str "Empty", []⟩]⟩

/-- The store loaded from `c7Doc`: the collection index names "Empty" but
the verse store has no entry for it. -/
def c7Svc : Service := loadDocuments [(str "book-of-mormon.json", some c7Doc)]

/-- A well-formed document sequence: one book with a verse, plus one
undecodable blob that the loader skips. -/
def c7WitDocs : List (Str × Option ScriptureData) :=
  [(str "book-of-mormon.json",
    some ⟨[⟨str "1 Nephi",
      [⟨3, [⟨7, str "I will go and do", str "1 Nephi 3:7"⟩]⟩]⟩]⟩),
   (str "broken.json", none)]

/-- The true occurrence count of `term` as a whole normalized token over
a verse list (the spec's notion of an occurrence count). -/
def tokenOccurrences (verses : List Scripture) (term : Str) : Nat :=
  ((verses.flatMap (fun v => (tokenize v.text).map normalizeToken)).filter
    (fun w => w == term)).length

/-! ### Closed form of the scan loop -/

/-- The scan loop in closed form: it returns early (flag `true`) exactly
when at least one verse is kept and the accumulated length reaches the
limit; the early result keeps the first `max (limit - |acc|) 1` matches,
the complete result keeps them all. -/
theorem searchScan_eq (keep : Scripture → Bool) (limit : Int)
    (l : List Scripture) : ∀ acc : List Scripture,
    searchScan keep limit acc l =
      if ((l.filter keep).length + acc.length : Int) ≥ limit ∧
          l.filter keep ≠ [] then
        (acc ++ (l.filter keep).take ((limit - acc.length).toNat ⊔ 1), true)
      else (acc ++ l.filter keep, false) := by
  induction l with
  | nil => intro acc; simp [searchScan]
  | cons v rest ih =>
    intro acc
    by_cases hk : keep v
    · simp only [searchScan, hk, if_true, List.filter_cons_of_pos hk,
        List.length_append, List.length_cons, List.length_singleton,
        List.length_nil]
      push_cast
      by_cases hl : ((acc.length : Int) + 1 ≥ limit)
      · rw [if_pos hl]
        have hcond : (((rest.filter keep).length : Int) + 1 + acc.length ≥
            limit ∧ v :: rest.filter keep ≠ []) := by
          refine ⟨?_, by simp⟩
          have : (0 : Int) ≤ (rest.filter keep).length := Int.ofNat_nonneg _
          omega
        rw [if_pos hcond]
        have htake : (limit.toNat - acc.length) ⊔ 1 = 1 := by omega
        simp [htake]
      · rw [if_neg hl]
        rw [ih (acc ++ [v])]
        simp only [List.length_append, List.length_singleton]
        push_cast
        by_cases hc2 : (((rest.filter keep).length : Int) +
            ((acc.length : Int) + 1) ≥ limit ∧ rest.filter keep ≠ [])
        · rw [if_pos hc2]
          have hcond : (((rest.filter keep).length : Int) + 1 + acc.length ≥
              limit ∧ v :: rest.filter keep ≠ []) := ⟨by omega, by simp⟩
          rw [if_pos hcond]
          have htake : (limit - (acc.length : Int)).toNat ⊔ 1 =
              ((limit - ((acc.length : Int) + 1)).toNat ⊔ 1) + 1 := by omega
          rw [htake, List.take_succ_cons, List.append_assoc,
            List.singleton_append]
        · rw [if_neg hc2]
          by_cases hc : (((rest.filter keep).length : Int) + 1 + acc.length ≥
              limit ∧ v :: rest.filter keep ≠ [])
          · exfalso
            rcases hc with ⟨hge, -⟩
            rcases not_and_or.mp hc2 with h2 | h2
            · exact h2 (by omega)
            · have hnil : rest.filter keep = [] := not_ne_iff.mp h2
              rw [hnil] at hge
              simp at hge
              omega
          · rw [if_neg hc]
            rw [List.append_assoc, List.singleton_append]
    · simp only [searchScan, hk, if_false, List.filter_cons_of_neg hk]
      exact ih acc

/-- `performSearchWithFilters` in closed form: if the matches reach the
limit, the first `max limit 1` matches are returned in scan order
(early return, unsorted); otherwise all matches are returned sorted by
(collection, book, chapter, verse). -/
theorem performSearchWithFilters_eq (s : Service) (q : Str) (limit : Int)
    (book collection : Str) :
    performSearchWithFilters s q limit book collection =
      if ((searchMatches s q book collection).length : Int) ≥ limit ∧
          searchMatches s q book collection ≠ [] then
        (searchMatches s q book collection).take (limit.toNat ⊔ 1)
      else List.insertionSort scripLE (searchMatches s q book collection) := by
  unfold performSearchWithFilters searchMatches
  rw [searchScan_eq]
  simp only [List.length_nil, Nat.cast_zero, add_zero, sub_zero,
    List.nil_append]
  by_cases hc : ((((scanList s book collection).filter
      (searchKeep q book collection)).length : Int) ≥ limit ∧
      (scanList s book collection).filter (searchKeep q book collection) ≠ [])
  · rw [if_pos hc, if_pos hc]
  · rw [if_neg hc, if_neg hc]


/-! ### C1: final ordering of search results -/

/-- C1 counterexample: the claim says the final sort by
(collection, book, chapter, verse) is applied unconditionally, including
when the scan stops early at the result limit. On a loaded store whose
book holds chapter 2 before chapter 1, searching "hello" with limit 2
hits the limit and returns the matches in scan order — chapter 2 before
chapter 1 — so the result is not sorted. -/
theorem c1_counterexample :
    ¬ List.Sorted scripLE
      (performSearchWithFilters c1Svc (str "hello") 2 [] []) := by decide

/-- C1 (amended): the final sort runs only when the scan completes
without reaching the limit; whenever fewer matches than the limit exist
in scope, the returned list is sorted ascending by
(collection, book, chapter, verse). (When the limit cuts the scan short,
the matches are returned immediately in scan order.) -/
theorem c1_sorted_when_scan_completes (s : Service) (q : Str) (limit : Int)
    (book collection : Str)
    (h : ((searchMatches s q book collection).length : Int) < limit) :
    List.Sorted scripLE (performSearchWithFilters s q limit book collection) := by
  rw [performSearchWithFilters_eq]
  rw [if_neg (by rintro ⟨h1, -⟩; omega)]
  exact List.sorted_insertionSort scripLE _

/-- C1 witness: a concrete search whose matches stay below the limit and
whose result is sorted. -/
theorem c1_witness :
    ((searchMatches svcWit (str "god") [] []).length : Int) < 10 ∧
    List.Sorted scripLE (performSearchWithFilters svcWit (str "god") 10 [] []) :=
  ⟨by decide, c1_sorted_when_scan_completes svcWit (str "god") 10 [] []
    (by decide)⟩

/-! ### C10: non-positive limit -/

/-- C10: when search is invoked with a non-positive limit and at least one
verse in scope matches, the result is not empty: exactly one matching
verse is returned, because the limit check runs only after a match has
been appended. -/
theorem c10_nonpositive_limit_one_result (s : Service) (q book collection : Str)
    (limit : Int) (hlim : limit ≤ 0)
    (hne : searchMatches s q book collection ≠ []) :
    (performSearchWithFilters s q limit book collection).length = 1 ∧
    (performSearchWithFilters s q limit book collection).all
      (searchKeep q book collection) = true := by
  rw [performSearchWithFilters_eq]
  have hge : ((searchMatches s q book collection).length : Int) ≥ limit := by
    have : (0 : Int) ≤ (searchMatches s q book collection).length :=
      Int.ofNat_nonneg _
    omega
  rw [if_pos ⟨hge, hne⟩]
  have ht : limit.toNat ⊔ 1 = 1 := by omega
  rw [ht]
  obtain ⟨a, t, hm⟩ := List.exists_cons_of_ne_nil hne
  constructor
  · rw [hm]
    rfl
  · rw [List.all_eq_true]
    intro v hv
    have hvm : v ∈ searchMatches s q book collection := List.take_subset _ _ hv
    have : v ∈ (scanList s book collection).filter
        (searchKeep q book collection) := hvm
    exact List.of_mem_filter this

/-- C10 witness: limit 0 with a matching verse in the store returns a
single matching verse. -/
theorem c10_witness :
    (0 : Int) ≤ 0 ∧ searchMatches svcWit (str "God") [] [] ≠ [] ∧
    ((performSearchWithFilters svcWit (str "God") 0 [] []).length = 1 ∧
     (performSearchWithFilters svcWit (str "God") 0 [] []).all
       (searchKeep (str "God") [] []) = true) :=
  ⟨by decide, by decide,
    c10_nonpositive_limit_one_result svcWit (str "God") [] [] 0 (by decide)
      (by decide)⟩

/-! ### C2: filter precedence -/

/-- With a nonempty book filter the scan covers exactly the verses stored
under that book key (the absent-book case gives the empty list on both
sides), independently of the collection filter. -/
theorem scanList_book (s : Service) (book col : Str) (hb : book ≠ []) :
    scanList s book col = storeVerses s book := by
  unfold scanList searchOrder
  rw [if_pos hb]
  by_cases h : (mapLookup s.scriptures book).isSome
  · rw [if_pos h]
    simp [storeVerses]
  · rw [if_neg h]
    have hn : mapLookup s.scriptures book = none :=
      Option.not_isSome_iff_eq_none.mp h
    simp [storeVerses, hn]

/-- Every returned verse was kept by the scan. -/
theorem mem_searchMatches_of_mem_performSearchWithFilters
    (s : Service) (q : Str) (limit : Int) (book col : Str) (v : Scripture) :
    v ∈ performSearchWithFilters s q limit book col →
    v ∈ searchMatches s q book col := by
  rw [performSearchWithFilters_eq]
  split
  · exact fun hv => List.take_subset _ _ hv
  · intro hv
    exact (List.perm_insertionSort scripLE _).mem_iff.mp hv


/-- In a well-formed store, a verse found under key `b` has book `b`. -/
theorem book_eq_of_mem_storeVerses (s : Service) (b : Str) (v : Scripture)
    (hwf : storeWF s = true) (hv : v ∈ storeVerses s b) : v.book = b := by
  unfold storeVerses mapLookup at hv
  cases hf : s.scriptures.find? (fun p => p.1 == b) with
  | none => rw [hf] at hv; simp at hv
  | some p =>
    rw [hf] at hv
    simp at hv
    have hkey : p.1 = b := by
      have := List.find?_some hf
      exact eq_of_beq this
    have hmem : p ∈ s.scriptures := List.mem_of_find?_eq_some hf
    have hall := (List.all_eq_true.mp hwf) p hmem
    have := (List.all_eq_true.mp hall) v hv
    rw [← hkey]
    exact eq_of_beq this

/-- C2 counterexample: the claim says that when both filters are given the
book filter takes precedence and the result equals the book-only search,
regardless of whether the named book belongs to the named collection. In
the concrete store, "1 Nephi" belongs to "Book of Mormon": searching it
with collection filter "New Testament" returns nothing, while the
book-only search returns matches — the collection filter is still applied
to every verse. -/
theorem c2_counterexample :
    performSearchWithFilters svcWit (str "Lord") 10 (str "1 Nephi")
        (str "New Testament") ≠
      performSearchWithFilters svcWit (str "Lord") 10 (str "1 Nephi") [] ∧
    performSearchWithFilters svcWit (str "Lord") 10 (str "1 Nephi")
        (str "New Testament") = [] := by decide

/-- C2 (amended): when both filters are supplied, the scan is scoped to
the named book but the collection filter is still applied per verse: if
every verse of the book matches the collection filter (case-insensitively)
the result equals the book-only search, and if none does the result is
empty; with only a book filter set, every returned verse of a well-formed
store has that book name. -/
theorem c2_filter_precedence :
    (∀ (s : Service) (q : Str) (limit : Int) (book col : Str), book ≠ [] →
      (∀ v ∈ storeVerses s book, eqFold v.collection col = true) →
      performSearchWithFilters s q limit book col =
        performSearchWithFilters s q limit book []) ∧
    (∀ (s : Service) (q : Str) (limit : Int) (book col : Str), book ≠ [] →
      col ≠ [] →
      (∀ v ∈ storeVerses s book, eqFold v.collection col = false) →
      performSearchWithFilters s q limit book col = []) ∧
    (∀ (s : Service) (q : Str) (limit : Int) (book : Str), book ≠ [] →
      storeWF s = true →
      ∀ v ∈ performSearchWithFilters s q limit book [], v.book = book) := by
  refine ⟨?_, ?_, ?_⟩
  · intro s q limit book col hb hcol
    have hm : searchMatches s q book col = searchMatches s q book [] := by
      unfold searchMatches
      rw [scanList_book s book col hb, scanList_book s book [] hb]
      apply List.filter_congr
      intro v hv
      have hc := hcol v hv
      simp [searchKeep, hc]
    rw [performSearchWithFilters_eq, performSearchWithFilters_eq, hm]
  · intro s q limit book col hb hc0 hcol
    have hm : searchMatches s q book col = [] := by
      unfold searchMatches
      rw [scanList_book s book col hb]
      rw [List.filter_eq_nil_iff]
      intro v hv
      have hc := hcol v hv
      have hcne : (col == ([] : Str)) = false := by
        exact beq_eq_false_iff_ne.mpr hc0
      simp [searchKeep, hc, hcne]
    rw [performSearchWithFilters_eq, hm]
    rw [if_neg (by rintro ⟨-, h⟩; exact h rfl)]
    rfl
  · intro s q limit book hb hwf v hv
    have hm := mem_searchMatches_of_mem_performSearchWithFilters
      s q limit book [] v hv
    unfold searchMatches at hm
    rw [scanList_book s book [] hb] at hm
    exact book_eq_of_mem_storeVerses s book v hwf (List.mem_of_mem_filter hm)

/-- C2 witness: concrete instances of all three amended parts. -/
theorem c2_witness :
    performSearchWithFilters svcWit (str "the") 10 (str "1 Nephi")
        (str "Book of Mormon") =
      performSearchWithFilters svcWit (str "the") 10 (str "1 Nephi") [] ∧
    performSearchWithFilters svcWit (str "the") 10 (str "1 Nephi")
        (str "New Testament") = [] ∧
    (∀ v ∈ performSearchWithFilters svcWit (str "the") 10 (str "1 Nephi") [],
      v.book = str "1 Nephi") :=
  ⟨c2_filter_precedence.1 svcWit (str "the") 10 (str "1 Nephi")
      (str "Book of Mormon") (by decide) (by decide),
   c2_filter_precedence.2.1 svcWit (str "the") 10 (str "1 Nephi")
      (str "New Testament") (by decide) (by decide) (by decide),
   c2_filter_precedence.2.2 svcWit (str "the") 10 (str "1 Nephi")
      (by decide) (by decide)⟩

/-! ### C4: no duplicate references -/


/-- C4 counterexample: the claim says no search ever returns two elements
with the same reference on any loaded store. A loadable document can carry
the same verse twice; the exact pass emits each stored occurrence, so the
result contains the reference "B 1:1" twice. -/
theorem c4_counterexample :
    ¬ ((performSearchWithFilters c4Svc (str "hello") 10 [] []).map
        Scripture.reference).Nodup := by decide

/-- C4 (amended): the exact pass emits each stored verse occurrence once,
so search results have pairwise distinct references provided the scanned
verses themselves carry pairwise distinct references (duplicates can only
come from a store that holds the same reference twice); and the fuzzy
merge of the historical combined search skips any verse whose reference
already appears among the accumulated results, preserving distinctness. -/
theorem c4_no_duplicate_references :
    (∀ (s : Service) (q : Str) (limit : Int) (book col : Str),
      ((scanList s book col).map Scripture.reference).Nodup →
      ((performSearchWithFilters s q limit book col).map
        Scripture.reference).Nodup) ∧
    (∀ (limit : Int) (acc fs : List Scripture),
      (acc.map Scripture.reference).Nodup →
      ((mergeFuzzy limit acc fs).map Scripture.reference).Nodup) := by
  constructor
  · intro s q limit book col h
    have hsub : List.Sublist (searchMatches s q book col)
        (scanList s book col) := List.filter_sublist _
    rw [performSearchWithFilters_eq]
    split
    · have hsub2 : List.Sublist
          ((searchMatches s q book col).take (limit.toNat ⊔ 1))
          (scanList s book col) := (List.take_sublist _ _).trans hsub
      exact h.sublist (hsub2.map Scripture.reference)
    · have hperm : List.Perm
          (List.insertionSort scripLE (searchMatches s q book col))
          (searchMatches s q book col) := List.perm_insertionSort _ _
      have hmap := hperm.map Scripture.reference
      exact hmap.nodup_iff.mpr (h.sublist (hsub.map Scripture.reference))
  · intro limit acc fs
    induction fs generalizing acc with
    | nil => intro h; exact h
    | cons f fs ih =>
      intro h
      by_cases hd : (acc.any fun e => e.reference == f.reference) = true
      · simp only [mergeFuzzy, hd, if_true]
        exact ih acc h
      · have hd' : (acc.any fun e => e.reference == f.reference) = false :=
          Bool.not_eq_true _ |>.mp hd
        have hnotin : ∀ e ∈ acc, e.reference ≠ f.reference := by
          intro e he heq
          have : ∃ e ∈ acc, (e.reference == f.reference) = true :=
            ⟨e, he, beq_iff_eq.mpr heq⟩
          rw [← List.any_eq_true] at this
          rw [hd'] at this
          exact Bool.false_ne_true this
        have hnew : ((acc ++ [f]).map Scripture.reference).Nodup := by
          rw [List.map_append]
          refine h.append (List.nodup_singleton _) ?_
          intro a ha hb
          simp only [List.map_cons, List.map_nil, List.mem_singleton] at hb
          rcases List.mem_map.mp ha with ⟨e, he, hrefl⟩
          exact hnotin e he (hrefl.trans hb)
        simp only [mergeFuzzy, hd', Bool.false_eq_true, if_false]
        by_cases hlim : (((acc ++ [f]).length : Int) ≥ limit)
        · rw [if_pos hlim]
          exact hnew
        · rw [if_neg hlim]
          exact ih (acc ++ [f]) hnew

/-- C4 witness: concrete instances of both amended parts. -/
theorem c4_witness :
    ((performSearchWithFilters svcWit (str "Lord") 10 [] []).map
      Scripture.reference).Nodup ∧
    ((mergeFuzzy 5
        [⟨str "John", str "New Testament", 3, 16,
          str "For God so loved the world", str "John 3:16"⟩]
        [⟨str "John", str "New Testament", 3, 16,
          str "For God so loved the world", str "John 3:16"⟩,
         ⟨str "1 Nephi", str "Book of Mormon", 3, 7, str "go and do",
          str "1 Nephi 3:7"⟩]).map Scripture.reference).Nodup :=
  ⟨c4_no_duplicate_references.1 svcWit (str "Lord") 10 [] [] (by decide),
   c4_no_duplicate_references.2 5 _ _ (by decide)⟩

/-! ### C3: fuzzy qualification threshold -/

/-- Folding `min` commutes with taking `min` against the start value. -/
theorem foldl_min_comm (l : List Nat) : ∀ a c : Nat,
    min (l.foldl min a) c = l.foldl min (min a c) := by
  induction l with
  | nil => intro a c; rfl
  | cons x t ih =>
    intro a c
    simp only [List.foldl_cons]
    rw [ih (min a x) c]
    have hmm : min (min a x) c = min (min a c) x := by
      rw [Nat.min_assoc, Nat.min_comm x c, ← Nat.min_assoc]
    rw [hmm]

/-- The start value of a `min`-fold can be exchanged with an outer
`min`. -/
theorem min_foldl_min (l : List Nat) (a b : Nat) :
    min (l.foldl min a) b = min a (l.foldl min b) := by
  rw [foldl_min_comm l a b, Nat.min_comm a b, ← foldl_min_comm l b a,
    Nat.min_comm]

/-- The scan's running minimum equals the spec's score capped by the
(unreachably high) start value `len(query) + len(text)`. -/
theorem fuzzyScore_eq_min (q : Str) (v : Scripture) :
    fuzzyScore (toLowerStr q) v =
      min ((toLowerStr q).length + (toLowerStr v.text).length)
        (specFuzzyScore q v) := by
  unfold fuzzyScore specFuzzyScore
  dsimp only
  rw [← List.foldl_map (lev (toLowerStr q)) min]
  exact min_foldl_min _ _ _

/-- Above the short-query cutoff the code's threshold agrees with the
spec's. -/
theorem maxDistance_eq_specThreshold (ql : Str) (h : ¬ ql.length ≤ 3) :
    maxDistance ql = specThreshold ql.length := by
  unfold maxDistance specThreshold
  split_ifs <;> omega

/-- The spec threshold never exceeds 2. -/
theorem specThreshold_le_two (n : Nat) : specThreshold n ≤ 2 := by
  unfold specThreshold
  split_ifs <;> omega

/-- C3: a verse qualifies for the fuzzy pass iff its minimum word-level
edit distance score (over the words of the lowercased text and the
lowercased book name) is strictly positive and at most the
length-adaptive threshold — 0 for query length ≤ 3 (so short queries
yield no fuzzy candidates at all), 1 for lengths 4–5, 2 for lengths
greater than 5. -/
theorem c3_fuzzy_threshold (q : Str) (limit : Int) (verses : List Scripture)
    (v : Scripture) :
    ((toLowerStr q).length ≤ 3 → performFuzzySearch q limit verses = []) ∧
    (v ∈ verses →
      ((v, fuzzyScore (toLowerStr q) v) ∈ fuzzyCandidates q verses ↔
        0 < specFuzzyScore q v ∧
          specFuzzyScore q v ≤ specThreshold (toLowerStr q).length)) := by
  constructor
  · intro h
    unfold performFuzzySearch fuzzyCandidates
    rw [if_pos h]
    simp [selSort, selSortAux]
  · intro hv
    by_cases hlen : (toLowerStr q).length ≤ 3
    · constructor
      · intro hmem
        unfold fuzzyCandidates at hmem
        rw [if_pos hlen] at hmem
        simp at hmem
      · rintro ⟨h1, h2⟩
        unfold specThreshold at h2
        rw [if_pos hlen] at h2
        omega
    · have hql : 4 ≤ (toLowerStr q).length := by omega
      have hb0 : 4 ≤ (toLowerStr q).length + (toLowerStr v.text).length := by
        omega
      have hth : maxDistance (toLowerStr q) =
          specThreshold (toLowerStr q).length :=
        maxDistance_eq_specThreshold _ hlen
      have hth2 : specThreshold (toLowerStr q).length ≤ 2 :=
        specThreshold_le_two _
      unfold fuzzyCandidates
      rw [if_neg hlen, List.mem_filterMap]
      constructor
      · rintro ⟨v', hv', hsome⟩
        have hsome2 : (if 0 < fuzzyScore (toLowerStr q) v' ∧
              fuzzyScore (toLowerStr q) v' ≤ maxDistance (toLowerStr q) then
            some (v', fuzzyScore (toLowerStr q) v')
          else none) = some (v, fuzzyScore (toLowerStr q) v) := hsome
        by_cases hcond : 0 < fuzzyScore (toLowerStr q) v' ∧
            fuzzyScore (toLowerStr q) v' ≤ maxDistance (toLowerStr q)
        · rw [if_pos hcond] at hsome2
          simp only [Option.some.injEq, Prod.mk.injEq] at hsome2
          obtain ⟨rfl, -⟩ := hsome2
          rcases hcond with ⟨hpos, hle⟩
          rw [fuzzyScore_eq_min] at hpos hle
          rw [hth] at hle
          have hb0v : 4 ≤ (toLowerStr q).length +
              (toLowerStr v'.text).length := by omega
          rw [Nat.min_def] at hpos hle
          split_ifs at hpos hle with hcmp
          · omega
          · exact ⟨hpos, hle⟩
        · rw [if_neg hcond] at hsome2
          exact absurd hsome2 (by simp)
      · rintro ⟨hpos, hle⟩
        refine ⟨v, hv, ?_⟩
        have hspec2 : specFuzzyScore q v ≤ 2 := le_trans hle hth2
        have hmin : min ((toLowerStr q).length + (toLowerStr v.text).length)
            (specFuzzyScore q v) = specFuzzyScore q v :=
          min_eq_right (by omega)
        have hcond : 0 < fuzzyScore (toLowerStr q) v ∧
            fuzzyScore (toLowerStr q) v ≤ maxDistance (toLowerStr q) := by
          rw [fuzzyScore_eq_min, hmin, hth]
          exact ⟨hpos, hle⟩
        show (if 0 < fuzzyScore (toLowerStr q) v ∧
              fuzzyScore (toLowerStr q) v ≤ maxDistance (toLowerStr q) then
            some (v, fuzzyScore (toLowerStr q) v)
          else none) = some (v, fuzzyScore (toLowerStr q) v)
        rw [if_pos hcond]

/-- C3 witness: a short query produces no fuzzy results, and the
qualification equivalence holds at a concrete verse. -/
theorem c3_witness :
    performFuzzySearch (str "ab") 10
      [⟨str "John", str "New Testament", 3, 16,
        str "For God so loved the world", str "John 3:16"⟩] = [] ∧
    ((⟨str "John", str "New Testament", 3, 16,
        str "For God so loved the world", str "John 3:16"⟩,
      fuzzyScore (toLowerStr (str "loves"))
        ⟨str "John", str "New Testament", 3, 16,
         str "For God so loved the world", str "John 3:16"⟩) ∈
        fuzzyCandidates (str "loves")
          [⟨str "John", str "New Testament", 3, 16,
            str "For God so loved the world", str "John 3:16"⟩] ↔
      0 < specFuzzyScore (str "loves")
          ⟨str "John", str "New Testament", 3, 16,
           str "For God so loved the world", str "John 3:16"⟩ ∧
        specFuzzyScore (str "loves")
            ⟨str "John", str "New Testament", 3, 16,
             str "For God so loved the world", str "John 3:16"⟩ ≤
          specThreshold (toLowerStr (str "loves")).length) :=
  ⟨(c3_fuzzy_threshold (str "ab") 10 _
      ⟨str "John", str "New Testament", 3, 16,
       str "For God so loved the world", str "John 3:16"⟩).1 (by decide),
   (c3_fuzzy_threshold (str "loves") 10 _ _).2 (by decide)⟩

/-! ### C5: the fuzzy candidate sort -/

/-- The inner exchange pass preserves the number of later positions. -/
theorem selectMin_length : ∀ (x : α × Nat) (l : List (α × Nat)),
    (selectMin x l).2.length = l.length
  | _, [] => rfl
  | x, y :: ys => by
    simp only [selectMin]
    by_cases h : x.2 > y.2
    · simp only [if_pos h, List.length_cons, selectMin_length y ys]
    · simp only [if_neg h, List.length_cons, selectMin_length x ys]

/-- The inner exchange pass leaves the minimum score at position `i`. -/
theorem selectMin_le : ∀ (x : α × Nat) (l : List (α × Nat)),
    (selectMin x l).1.2 ≤ x.2 ∧
      ∀ y ∈ (selectMin x l).2, (selectMin x l).1.2 ≤ y.2
  | x, [] => ⟨le_refl _, by intro y hy; simp [selectMin] at hy⟩
  | x, y :: ys => by
    simp only [selectMin]
    by_cases h : x.2 > y.2
    · simp only [if_pos h]
      obtain ⟨h1, h2⟩ := selectMin_le y ys
      refine ⟨le_trans h1 (le_of_lt h), ?_⟩
      intro z hz
      rcases List.mem_cons.mp hz with rfl | hz2
      · exact le_trans h1 (le_of_lt h)
      · exact h2 z hz2
    · simp only [if_neg h]
      obtain ⟨h1, h2⟩ := selectMin_le x ys
      have hyx : x.2 ≤ y.2 := le_of_not_lt h
      refine ⟨h1, ?_⟩
      intro z hz
      rcases List.mem_cons.mp hz with rfl | hz2
      · exact le_trans h1 hyx
      · exact h2 z hz2

/-- The inner exchange pass permutes the segment it touches. -/
theorem selectMin_perm : ∀ (x : α × Nat) (l : List (α × Nat)),
    List.Perm ((selectMin x l).1 :: (selectMin x l).2) (x :: l)
  | _, [] => List.Perm.refl _
  | x, y :: ys => by
    simp only [selectMin]
    by_cases h : x.2 > y.2
    · simp only [if_pos h]
      have hp := selectMin_perm y ys
      exact (List.Perm.swap _ _ _).trans (hp.cons x)
    · simp only [if_neg h]
      have hp := selectMin_perm x ys
      exact ((List.Perm.swap _ _ _).trans (hp.cons y)).trans
        (List.Perm.swap _ _ _)

/-- With enough fuel, the exchange sort returns a score-sorted
permutation of its input. -/
theorem selSortAux_sorted_perm (fuel : Nat) :
    ∀ l : List (α × Nat), l.length ≤ fuel →
      List.Sorted (fun a b : α × Nat => a.2 ≤ b.2) (selSortAux fuel l) ∧
      List.Perm (selSortAux fuel l) l := by
  induction fuel with
  | zero =>
    intro l hl
    have hnil : l = [] := List.eq_nil_of_length_eq_zero (Nat.le_zero.mp hl)
    subst hnil
    exact ⟨List.sorted_nil, List.Perm.refl _⟩
  | succ f ih =>
    intro l hl
    match l with
    | [] => exact ⟨List.sorted_nil, List.Perm.refl _⟩
    | x :: xs =>
      simp only [selSortAux]
      have hlen : (selectMin x xs).2.length = xs.length := selectMin_length x xs
      have hfuel : (selectMin x xs).2.length ≤ f := by
        rw [hlen]
        simp only [List.length_cons] at hl
        omega
      obtain ⟨hs, hp⟩ := ih (selectMin x xs).2 hfuel
      constructor
      · rw [List.sorted_cons]
        refine ⟨?_, hs⟩
        intro b hb
        exact (selectMin_le x xs).2 b (hp.mem_iff.mp hb)
      · exact (hp.cons _).trans (selectMin_perm x xs)

/-- C5 counterexample: the claim says the candidate sort is stable with
respect to scan order for equal scores. With candidates scanned in the
order (score 2, score 2, score 1), the exchange sort swaps the first
score-2 candidate past the second: the output is
[(score 1), (second score-2), (first score-2)]. -/
theorem c5_counterexample :
    fuzzyCandidates (str "abcdef") [c5v1, c5v2, c5v3] =
      [(c5v1, 2), (c5v2, 2), (c5v3, 1)] ∧
    selSort (fuzzyCandidates (str "abcdef") [c5v1, c5v2, c5v3]) =
      [(c5v3, 1), (c5v2, 2), (c5v1, 2)] ∧
    ¬ stableForTies (fuzzyCandidates (str "abcdef") [c5v1, c5v2, c5v3])
        (selSort (fuzzyCandidates (str "abcdef") [c5v1, c5v2, c5v3])) := by
  decide

/-- C5 (amended): the qualifying candidate list is sorted ascending by
fuzzy score before truncation at the remaining limit — the sorted list is
a permutation of the scan-order candidates with nondecreasing scores, and
the fuzzy result is its `limit`-prefix — but the exchange sort is not
stable: candidates with equal scores may be reordered relative to the
scan. -/
theorem c5_fuzzy_sort_before_truncation (q : Str) (limit : Int)
    (verses : List Scripture) :
    List.Sorted (fun a b : Scripture × Nat => a.2 ≤ b.2)
      (selSort (fuzzyCandidates q verses)) ∧
    List.Perm (selSort (fuzzyCandidates q verses))
      (fuzzyCandidates q verses) ∧
    performFuzzySearch q limit verses =
      ((selSort (fuzzyCandidates q verses)).take limit.toNat).map Prod.fst := by
  obtain ⟨h1, h2⟩ :=
    selSortAux_sorted_perm (fuzzyCandidates q verses).length
      (fuzzyCandidates q verses) le_rfl
  exact ⟨h1, h2, rfl⟩

/-! ### C6: mutual exclusion of the reference grammars -/

/-- Membership survives `TrimSpace`. -/
theorem mem_of_mem_trimSpace {c : Char} {s : Str} (h : c ∈ trimSpace s) :
    c ∈ s := by
  unfold trimSpace at h
  rw [List.mem_reverse] at h
  have h1 := (List.dropWhile_sublist _).subset h
  rw [List.mem_reverse] at h1
  exact (List.dropWhile_sublist _).subset h1

/-- A successful verse-tail match consumed a colon. -/
theorem colon_mem_of_verseTail {u : Str} {p : Int × Int × Int}
    (h : verseTail u = some p) : ':' ∈ u := by
  unfold verseTail at h
  dsimp only at h
  by_cases hc : (u.takeWhile isDigitCh).isEmpty
  · rw [if_pos hc] at h
    exact Option.noConfusion h
  · rw [if_neg hc] at h
    cases hdrop : u.drop (u.takeWhile isDigitCh).length with
    | nil =>
      rw [hdrop] at h
      exact Option.noConfusion h
    | cons ch rest =>
      rw [hdrop] at h
      split at h
      · next u3 heq =>
        have hch : ch = ':' := by
          injection heq with h1 h2
        subst hch
        exact List.drop_subset _ _ (hdrop ▸ List.mem_cons_self _ _)
      · exact Option.noConfusion h

/-- C6 counterexample: the claim says every string containing a colon is
rejected by the chapter-only parser. But the colon may sit inside the
book-name part: "a:b 3" contains a colon yet parses as book "a:b",
chapter 3. -/
theorem c6_counterexample :
    ':' ∈ str "a:b 3" ∧
    parseChapterReference (str "a:b 3") = some ⟨str "a:b", 3, 0, 0⟩ := by
  decide

/-- C6 (amended): every string the verse parser accepts contains a colon,
so colon-free strings are always rejected by `parseReference` (in
particular "1 Nephi 3"); and the chapter parser rejects "1 Nephi 3:7".
The converse direction of the claimed mutual exclusion fails in general:
the chapter parser accepts strings whose colon lies inside the book-name
part. -/
theorem c6_reference_grammars :
    (∀ rs : Str, (parseReference rs).isSome = true → ':' ∈ rs) ∧
    parseChapterReference (str "1 Nephi 3:7") = none ∧
    parseReference (str "1 Nephi 3") = none := by
  refine ⟨?_, by decide, by decide⟩
  intro rs h
  rw [Option.isSome_iff_exists] at h
  obtain ⟨ref, href⟩ := h
  unfold parseReference at href
  obtain ⟨i, hi, hf⟩ := List.exists_of_findSome?_eq_some href
  dsimp only at hf
  split_ifs at hf
  rcases Option.map_eq_some'.mp hf with ⟨p, hp, -⟩
  have hcol := colon_mem_of_verseTail hp
  exact mem_of_mem_trimSpace
    (List.drop_subset _ _ (List.drop_subset _ _ hcol))

/-- C6 witness: a concrete accepted verse reference contains a colon. -/
theorem c6_witness :
    (parseReference (str "John 3:16")).isSome = true ∧ ':' ∈ str "John 3:16" :=
  ⟨by decide, c6_reference_grammars.1 (str "John 3:16") (by decide)⟩

/-! ### C7: loader consistency -/

/-- `find?` on an association list: a positive head is returned. -/
theorem find?_cons_pos {x : Str × List Scripture}
    {xs : List (Str × List Scripture)} {b : Str} (h : (x.1 == b) = true) :
    List.find? (fun p => p.1 == b) (x :: xs) = some x :=
  List.find?_cons_of_pos _ h

/-- `find?` on an association list: a negative head is skipped. -/
theorem find?_cons_neg {x : Str × List Scripture}
    {xs : List (Str × List Scripture)} {b : Str} (h : (x.1 == b) = false) :
    List.find? (fun p => p.1 == b) (x :: xs) =
      List.find? (fun p => p.1 == b) xs :=
  List.find?_cons_of_neg _ (by simp [h])

/-- The key found by an association-list lookup is the looked-up key. -/
theorem find?_key_eq {m : List (Str × List Scripture)} {b : Str}
    {q : Str × List Scripture}
    (hf : m.find? (fun p => p.1 == b) = some q) : (q.1 == b) = true := by
  have h2 := List.find?_some hf
  simpa using h2

/-- Looking up after updating every entry with a key-preserving function:
the found value is the updated one. -/
theorem mapLookup_map_update (m : List (Str × List Scripture)) (k b : Str)
    (v : Scripture) :
    mapLookup (m.map (fun p => if p.1 == k then (p.1, p.2 ++ [v]) else p)) b =
      (match m.find? (fun p => p.1 == b) with
       | some q => some (if q.1 == k then q.2 ++ [v] else q.2)
       | none => none) := by
  induction m with
  | nil => rfl
  | cons a t ih =>
    have hfa1 : (if (a.1 == k) = true then (a.1, a.2 ++ [v]) else a).1 = a.1 := by
      split <;> rfl
    by_cases hab : (a.1 == b) = true
    · unfold mapLookup
      rw [List.map_cons, find?_cons_pos (by rw [hfa1]; exact hab),
        find?_cons_pos hab]
      by_cases hak : (a.1 == k) = true <;> simp [hak]
    · have hab2 : (a.1 == b) = false := Bool.not_eq_true _ |>.mp hab
      unfold mapLookup at ih ⊢
      rw [List.map_cons, find?_cons_neg (by rw [hfa1]; exact hab2),
        find?_cons_neg hab2]
      exact ih

/-- The store lookup after `storeAppend`: the appended key's entry grows
by the verse; every other key is untouched. -/
theorem mapLookup_storeAppend (m : List (Str × List Scripture)) (k b : Str)
    (v : Scripture) :
    mapLookup (storeAppend m k v) b =
      if b = k then some ((mapLookup m k).getD [] ++ [v])
      else mapLookup m b := by
  unfold storeAppend
  by_cases hany : (m.any (fun p => p.1 == k)) = true
  · rw [if_pos hany, mapLookup_map_update]
    by_cases hbk : b = k
    · subst hbk
      cases hf : m.find? (fun p => p.1 == b) with
      | none =>
        exfalso
        obtain ⟨q, hq, hqk⟩ := List.any_eq_true.mp hany
        rw [List.find?_eq_none] at hf
        exact hf q hq hqk
      | some q =>
        have hq1 := find?_key_eq hf
        simp [hq1, mapLookup, hf]
    · cases hf : m.find? (fun p => p.1 == b) with
      | none => simp [mapLookup, hf, hbk]
      | some q =>
        have hq1 := find?_key_eq hf
        have hqb : q.1 = b := eq_of_beq hq1
        have hqk : (q.1 == k) = false := by
          rw [hqb]
          exact beq_eq_false_iff_ne.mpr hbk
        simp [mapLookup, hf, hqk, hbk]
  · rw [if_neg hany]
    have hf0 : m.find? (fun p => p.1 == k) = none := by
      rw [List.find?_eq_none]
      intro p hp hpk
      exact absurd (List.any_eq_true.mpr ⟨p, hp, hpk⟩) hany
    by_cases hbk : b = k
    · subst hbk
      simp [mapLookup, List.find?_append, hf0]
    · have hkb : ((k == b) : Bool) = false :=
        beq_eq_false_iff_ne.mpr (fun h => hbk h.symm)
      simp only [mapLookup, List.find?_append, if_neg hbk]
      cases hf : m.find? (fun p => p.1 == b) <;> simp [hkb]

/-- A nonempty entry survives any `storeAppend`. -/
theorem entryNonempty_storeAppend (m : List (Str × List Scripture))
    (k : Str) (v : Scripture) (b : Str) (h : entryNonempty m b) :
    entryNonempty (storeAppend m k v) b := by
  unfold entryNonempty at h ⊢
  rw [mapLookup_storeAppend]
  by_cases hbk : b = k
  · subst hbk
    exact ⟨(mapLookup m b).getD [] ++ [v], by rw [if_pos rfl], by simp⟩
  · rw [if_neg hbk]
    exact h

/-- `storeAppend` leaves a nonempty entry at its own key. -/
theorem entryNonempty_storeAppend_self (m : List (Str × List Scripture))
    (k : Str) (v : Scripture) : entryNonempty (storeAppend m k v) k := by
  unfold entryNonempty
  rw [mapLookup_storeAppend, if_pos rfl]
  exact ⟨_, rfl, by simp⟩

/-- A nonempty entry survives a whole `storeFold`. -/
theorem entryNonempty_storeFold (m : List (Str × List Scripture))
    (l : List (Str × Scripture)) (b : Str) (h : entryNonempty m b) :
    entryNonempty (storeFold m l) b := by
  induction l generalizing m with
  | nil => exact h
  | cons p rest ih =>
    exact ih (storeAppend m p.1 p.2) (entryNonempty_storeAppend m p.1 p.2 b h)

/-- After a `storeFold`, every folded key has a nonempty entry. -/
theorem entryNonempty_storeFold_mem (m : List (Str × List Scripture))
    (l : List (Str × Scripture)) :
    ∀ p ∈ l, entryNonempty (storeFold m l) p.1 := by
  induction l generalizing m with
  | nil => intro p hp; simp at hp
  | cons q rest ih =>
    intro p hp
    rcases List.mem_cons.mp hp with rfl | hp2
    · exact entryNonempty_storeFold _ rest p.1
        (entryNonempty_storeAppend_self m p.1 p.2)
    · exact ih (storeAppend m q.1 q.2) p hp2

/-- `storeAppend` creates no key other than its own. -/
theorem mem_keys_storeAppend (m : List (Str × List Scripture)) (k : Str)
    (v : Scripture) (b : Str) (vs : List Scripture)
    (h : (b, vs) ∈ storeAppend m k v) :
    (∃ vs₀, (b, vs₀) ∈ m) ∨ b = k := by
  unfold storeAppend at h
  by_cases hany : (m.any (fun p => p.1 == k)) = true
  · rw [if_pos hany] at h
    rcases List.mem_map.mp h with ⟨p, hp, heq⟩
    by_cases hpk : (p.1 == k) = true
    · rw [if_pos hpk] at heq
      have hb : b = p.1 := by
        have := congrArg Prod.fst heq
        exact this.symm
      exact Or.inl ⟨p.2, by rw [hb]; exact hp⟩
    · rw [if_neg hpk] at heq
      exact Or.inl ⟨vs, heq ▸ hp⟩
  · rw [if_neg hany] at h
    rcases List.mem_append.mp h with hm | hone
    · exact Or.inl ⟨vs, hm⟩
    · simp at hone
      exact Or.inr hone.1

/-- `storeFold` creates no key outside the folded pairs. -/
theorem mem_keys_storeFold (m : List (Str × List Scripture))
    (l : List (Str × Scripture)) (b : Str) (vs : List Scripture)
    (h : (b, vs) ∈ storeFold m l) :
    (∃ vs₀, (b, vs₀) ∈ m) ∨ b ∈ l.map Prod.fst := by
  induction l generalizing m with
  | nil => exact Or.inl ⟨vs, h⟩
  | cons q rest ih =>
    rcases ih (storeAppend m q.1 q.2) h with ⟨vs₀, h0⟩ | hrest
    · rcases mem_keys_storeAppend m q.1 q.2 b vs₀ h0 with hold | rfl
      · exact Or.inl hold
      · exact Or.inr (by rw [List.map_cons]; exact List.mem_cons_self _ _)
    · exact Or.inr (List.mem_cons_of_mem _ hrest)

/-- Every key a document contributes is one of its book names. -/
theorem flatVerses_keys (d : ScriptureData) (col b : Str)
    (h : b ∈ (flatVerses d col).map Prod.fst) :
    b ∈ d.books.map BookData.book := by
  rcases List.mem_map.mp h with ⟨p, hp, rfl⟩
  rcases List.mem_flatMap.mp hp with ⟨bk, hbk, hp2⟩
  rcases List.mem_flatMap.mp hp2 with ⟨ch, hch, hp3⟩
  rcases List.mem_map.mp hp3 with ⟨vd, hvd, rfl⟩
  exact List.mem_map.mpr ⟨bk, hbk, rfl⟩

/-- A book with at least one verse contributes its key. -/
theorem flatVerses_mem_key (d : ScriptureData) (col : Str) (bk : BookData)
    (hbk : bk ∈ d.books) (hv : bookHasVerse bk = true) :
    bk.book ∈ (flatVerses d col).map Prod.fst := by
  unfold bookHasVerse at hv
  obtain ⟨ch, hch, hne⟩ := List.any_eq_true.mp hv
  have hne2 : ch.verses ≠ [] := by
    intro h0
    rw [h0] at hne
    simp at hne
  obtain ⟨vd, hvd⟩ := List.exists_mem_of_ne_nil _ hne2
  refine List.mem_map.mpr
    ⟨(bk.book, verseToScripture bk.book col ch.chapter vd), ?_, rfl⟩
  exact List.mem_flatMap.mpr
    ⟨bk, hbk, List.mem_flatMap.mpr
      ⟨ch, hch, List.mem_map.mpr ⟨vd, hvd, rfl⟩⟩⟩

/-- Inserting a fresh key appends the entry. -/
theorem mapSet_fresh (m : List (Str × α)) (k : Str) (v : α)
    (h : (m.any (fun p => p.1 == k)) = false) :
    mapSet m k v = m ++ [(k, v)] := by
  unfold mapSet
  rw [h]
  rfl

/-- `storeFold` over a `flatMap` processes the groups in order. -/
theorem storeFold_flatMap (l : List α) (f : α → List (Str × Scripture)) :
    ∀ m, storeFold m (l.flatMap f) = l.foldl (fun m2 a => storeFold m2 (f a)) m := by
  induction l with
  | nil => intro m; rfl
  | cons a rest ih =>
    intro m
    rw [List.flatMap_cons]
    unfold storeFold
    rw [List.foldl_append, List.foldl_cons]
    exact ih (storeFold m (f a))

/-- `parseAndStore` in flattened form: the store is the old store with
every (book, verse) pair of the document appended in order; the collection
entry is written afterwards. -/
theorem parseAndStore_eq (s : Service) (d : ScriptureData) (label : Str) :
    parseAndStore s d label =
      ⟨storeFold s.scriptures (flatVerses d (getCollectionName label)),
       mapSet s.collections (getCollectionName label)
         (d.books.map BookData.book)⟩ := by
  unfold parseAndStore
  dsimp only
  congr 1
  unfold flatVerses
  rw [storeFold_flatMap]
  have hfe : (fun (m : List (Str × List Scripture)) (bk : BookData) =>
      storeFold m (bk.chapters.flatMap (fun ch => ch.verses.map (fun vd =>
        (bk.book,
         verseToScripture bk.book (getCollectionName label) ch.chapter vd))))) =
      (fun m bk => bk.chapters.foldl (fun m2 ch =>
        ch.verses.foldl (fun m3 vd => storeAppend m3 bk.book
          (verseToScripture bk.book (getCollectionName label) ch.chapter vd))
          m2) m) := by
    funext m bk
    rw [storeFold_flatMap]
    have hfe2 : (fun (m2 : List (Str × List Scripture)) (ch : ChapterData) =>
        storeFold m2 (ch.verses.map (fun vd => (bk.book,
          verseToScripture bk.book (getCollectionName label) ch.chapter vd)))) =
        (fun m2 ch => ch.verses.foldl (fun m3 vd => storeAppend m3 bk.book
          (verseToScripture bk.book (getCollectionName label) ch.chapter vd))
          m2) := by
      funext m2 ch
      unfold storeFold
      rw [List.foldl_map]
    rw [hfe2]
  rw [hfe]

/-- Key absence as a Boolean `any`. -/
theorem any_key_eq_false_iff (m : List (Str × α)) (c : Str) :
    (m.any (fun p => p.1 == c)) = false ↔ c ∉ m.map Prod.fst := by
  rw [← Bool.not_eq_true, List.any_eq_true]
  constructor
  · intro h hc
    rcases List.mem_map.mp hc with ⟨p, hp, hpc⟩
    exact h ⟨p, hp, beq_iff_eq.mpr hpc⟩
  · rintro h ⟨p, hp, hpc⟩
    exact h (List.mem_map.mpr ⟨p, hp, eq_of_beq hpc⟩)

/-- One loader step preserves consistency when the document's collection
is fresh and all its books carry verses, and appends exactly that
collection key. -/
theorem parseAndStore_consistent (s : Service) (d : ScriptureData)
    (label : Str) (hs : consistentState s)
    (hfresh : getCollectionName label ∉ s.collections.map Prod.fst)
    (hbooks : d.books.all bookHasVerse = true) :
    consistentState (parseAndStore s d label) ∧
    (parseAndStore s d label).collections.map Prod.fst =
      s.collections.map Prod.fst ++ [getCollectionName label] := by
  have hfreshb :
      (s.collections.any (fun p => p.1 == getCollectionName label)) = false :=
    (any_key_eq_false_iff _ _).mpr hfresh
  rw [parseAndStore_eq]
  refine ⟨⟨?_, ?_⟩, ?_⟩
  · intro c bks hmem b hb
    dsimp only at hmem ⊢
    rw [mapSet_fresh _ _ _ hfreshb] at hmem
    rcases List.mem_append.mp hmem with hold | hnew
    · exact entryNonempty_storeFold _ _ b (hs.1 c bks hold b hb)
    · have heq : (c, bks) =
          (getCollectionName label, d.books.map BookData.book) := by
        simpa using hnew
      have hbks : bks = d.books.map BookData.book :=
        congrArg Prod.snd heq
      rw [hbks] at hb
      rcases List.mem_map.mp hb with ⟨bk, hbk, rfl⟩
      have hv : bookHasVerse bk = true := List.all_eq_true.mp hbooks bk hbk
      have hkey := flatVerses_mem_key d (getCollectionName label) bk hbk hv
      rcases List.mem_map.mp hkey with ⟨p, hp, hpb⟩
      have hne := entryNonempty_storeFold_mem s.scriptures _ p hp
      rw [hpb] at hne
      exact hne
  · intro b vs hmem
    dsimp only at hmem ⊢
    rcases mem_keys_storeFold _ _ _ _ hmem with ⟨vs₀, hold⟩ | hnewkey
    · obtain ⟨c, bks, hc, hb⟩ := hs.2 b vs₀ hold
      refine ⟨c, bks, ?_, hb⟩
      rw [mapSet_fresh _ _ _ hfreshb]
      exact List.mem_append_left _ hc
    · refine ⟨getCollectionName label, d.books.map BookData.book, ?_,
        flatVerses_keys d _ b hnewkey⟩
      rw [mapSet_fresh _ _ _ hfreshb]
      exact List.mem_append_right _ (List.mem_singleton.mpr rfl)
  · dsimp only
    rw [mapSet_fresh _ _ _ hfreshb, List.map_append]
    rfl

/-- `docsWF` splits over cons. -/
theorem docsWF_cons (p : Str × Option ScriptureData)
    (rest : List (Str × Option ScriptureData)) :
    docsWF (p :: rest) = true ↔
      (match p.2 with
       | none => true
       | some d => d.books.all bookHasVerse) = true ∧ docsWF rest = true := by
  unfold docsWF
  rw [List.all_cons, Bool.and_eq_true]

/-- A skipped (undecodable) document registers no collection. -/
theorem docCollections_cons_none (p : Str × Option ScriptureData)
    (rest : List (Str × Option ScriptureData)) (hp : p.2 = none) :
    docCollections (p :: rest) = docCollections rest := by
  unfold docCollections
  rw [List.filterMap_cons, hp]
  rfl

/-- A decoded document registers its collection first. -/
theorem docCollections_cons_some (p : Str × Option ScriptureData)
    (rest : List (Str × Option ScriptureData)) (d : ScriptureData)
    (hp : p.2 = some d) :
    docCollections (p :: rest) =
      getCollectionName p.1 :: docCollections rest := by
  unfold docCollections
  rw [List.filterMap_cons, hp]
  rfl

/-- Loader loop invariant: starting from a consistent state whose
registered collections are disjoint from the incoming ones, loading
well-formed documents with pairwise distinct collections keeps the state
consistent. -/
theorem loadDocuments_consistent_aux (docs : List (Str × Option ScriptureData)) :
    ∀ s : Service, consistentState s → docsWF docs = true →
    (docCollections docs).Nodup →
    (∀ c ∈ docCollections docs, c ∉ s.collections.map Prod.fst) →
    consistentState (docs.foldl (fun s2 p =>
      match p.2 with
      | some d => parseAndStore s2 d p.1
      | none => s2) s) := by
  induction docs with
  | nil =>
    intro s hs _ _ _
    exact hs
  | cons p rest ih =>
    intro s hs hwf hnd hfresh
    rw [List.foldl_cons]
    obtain ⟨hwf1, hwf2⟩ := (docsWF_cons p rest).mp hwf
    cases hp : p.2 with
    | none =>
      have hdc := docCollections_cons_none p rest hp
      rw [hdc] at hnd hfresh
      exact ih s hs hwf2 hnd hfresh
    | some d =>
      rw [hp] at hwf1
      have hdc := docCollections_cons_some p rest d hp
      rw [hdc] at hnd hfresh
      obtain ⟨hnotin, hnd2⟩ := List.nodup_cons.mp hnd
      have hfresh1 : getCollectionName p.1 ∉ s.collections.map Prod.fst :=
        hfresh _ (List.mem_cons_self _ _)
      obtain ⟨hcons2, hkeys2⟩ :=
        parseAndStore_consistent s d p.1 hs hfresh1 hwf1
      apply ih (parseAndStore s d p.1) hcons2 hwf2 hnd2
      intro c hc
      rw [hkeys2]
      intro hmem
      rcases List.mem_append.mp hmem with hin | hone
      · exact hfresh c (List.mem_cons_of_mem _ hc) hin
      · have hceq : c = getCollectionName p.1 := by simpa using hone
        exact hnotin (hceq ▸ hc)

/-- C7 counterexample: the claim asserts consistency for every loaded
document sequence, including documents whose books carry no verses. A
document with the verse-less book "Empty" registers "Empty" in the
collection index while the verse store gets no entry for it. -/
theorem c7_counterexample : ¬ consistentState c7Svc := by
  intro h
  have hmem : (str "Book of Mormon", [str "Empty"]) ∈ c7Svc.collections := by
    decide
  obtain ⟨vs, hvs, -⟩ := h.1 _ _ hmem (str "Empty") (by decide)
  have hnone : mapLookup c7Svc.scriptures (str "Empty") = none := by decide
  rw [hnone] at hvs
  exact Option.noConfusion hvs

/-- C7 (amended): after loading any sequence of labeled documents in
which every decoded document's books all carry at least one verse and no
two decoded documents map to the same collection name, the Collection
Index and the Verse Store are mutually consistent: every indexed book has
a nonempty store entry and every store key is indexed. (A verse-less book
or a collection-name collision breaks consistency.) -/
theorem c7_loader_consistency (docs : List (Str × Option ScriptureData))
    (h1 : docsWF docs = true) (h2 : (docCollections docs).Nodup) :
    consistentState (loadDocuments docs) := by
  unfold loadDocuments
  apply loadDocuments_consistent_aux docs emptyService ?_ h1 h2 ?_
  · constructor
    · intro c bks hmem b hb
      simp [emptyService] at hmem
    · intro b vs hmem
      simp [emptyService] at hmem
  · intro c hc
    simp [emptyService]

/-- C7 witness: a well-formed document plus a skipped undecodable blob
load into a consistent state. -/
theorem c7_witness :
    docsWF c7WitDocs = true ∧ (docCollections c7WitDocs).Nodup ∧
    consistentState (loadDocuments c7WitDocs) :=
  ⟨by decide, by decide,
   c7_loader_consistency c7WitDocs (by decide) (by decide)⟩

/-! ### C8: stop words in term counting -/

/-- The per-term update fold leaves every key other than the token
untouched. -/
theorem termsFold_preserve (terms : List Str) (w k : Str) (hwk : w ≠ k) :
    ∀ cs : Str → Nat,
      (terms.foldl (fun cs2 term =>
        if w == toLowerStr term then
          fun k2 => if k2 == toLowerStr term then cs2 k2 + 1 else cs2 k2
        else cs2) cs) k = cs k := by
  induction terms with
  | nil => intro cs; rfl
  | cons t rest ih =>
    intro cs
    rw [List.foldl_cons]
    rw [ih]
    by_cases hw : (w == toLowerStr t) = true
    · have hk2 : (k == toLowerStr t) = false :=
        beq_eq_false_iff_ne.mpr (fun he => hwk ((eq_of_beq hw).trans he.symm))
      simp [hw, hk2]
    · simp [hw]

/-- With the stop-word toggle on, a stop-word key is never incremented. -/
theorem countFold_common (terms : List Str) (tokens : List Str) (k : Str)
    (hk : isCommonWord k = true) :
    ∀ counts : Str → Nat, counts k = 0 →
      (tokens.foldl (countStep terms true) counts) k = 0 := by
  induction tokens with
  | nil => intro counts h; exact h
  | cons w rest ih =>
    intro counts h
    rw [List.foldl_cons]
    apply ih
    unfold countStep
    by_cases hcw : isCommonWord w = true
    · rw [if_pos (by simp [hcw])]
      exact h
    · rw [if_neg (by simp [hcw])]
      have hwk : w ≠ k := fun he => hcw (he ▸ hk)
      rw [termsFold_preserve terms w k hwk]
      exact h

/-- Counting a single term with stop words off tallies exactly the tokens
equal to it. -/
theorem countFold_single (t0 : Str) (tokens : List Str) :
    ∀ counts : Str → Nat,
      (tokens.foldl (countStep [t0] false) counts) (toLowerStr t0) =
        counts (toLowerStr t0) +
          (tokens.filter (fun w => w == toLowerStr t0)).length := by
  induction tokens with
  | nil => intro counts; simp
  | cons w rest ih =>
    intro counts
    rw [List.foldl_cons, List.filter_cons]
    by_cases hw : (w == toLowerStr t0) = true
    · rw [if_pos hw, ih]
      have hstep : countStep [t0] false counts w (toLowerStr t0) =
          counts (toLowerStr t0) + 1 := by
        unfold countStep
        have hw2 := eq_of_beq hw
        simp [hw2]
      rw [hstep]
      simp only [List.length_cons]
      omega
    · rw [if_neg (by simpa using hw), ih]
      have hstep : countStep [t0] false counts w (toLowerStr t0) =
          counts (toLowerStr t0) := by
        unfold countStep
        have hw2 : ¬ (w = toLowerStr t0) := by simpa using hw
        simp [hw2]
      rw [hstep]

/-- C8: with the stop-word toggle on, a requested term that is a stop
word counts 0 — stop-word tokens contribute to no term's count — while
the same count with the toggle off equals the true occurrence count of
the term as a whole token. -/
theorem c8_stop_words :
    (∀ (s : Service) (terms : List Str) (book col t : Str),
      t ∈ terms → isCommonWord (toLowerStr t) = true →
      countTerms s terms book col true (toLowerStr t) = 0) ∧
    (∀ (s : Service) (book col : Str),
      countTerms s [str "the"] book col false (str "the") =
        tokenOccurrences (scopedVerses s book col) (str "the")) := by
  constructor
  · intro s terms book col t ht hcommon
    unfold countTerms countTokens
    exact countFold_common terms _ (toLowerStr t) hcommon _ rfl
  · intro s book col
    unfold countTerms countTokens tokenOccurrences
    have hlow : toLowerStr (str "the") = str "the" := rfl
    have h := countFold_single (str "the")
      ((scopedVerses s book col).flatMap
        (fun v => (tokenize v.text).map normalizeToken)) (fun _ => 0)
    rw [hlow] at h
    rw [h]
    omega

/-- C8 witness: "the" is a stop word; counting it with the toggle on
gives 0, with the toggle off gives its token count. -/
theorem c8_witness :
    countTerms svcWit [str "the"] (str "1 Nephi") [] true
      (toLowerStr (str "the")) = 0 ∧
    countTerms svcWit [str "the"] (str "1 Nephi") [] false (str "the") =
      tokenOccurrences (scopedVerses svcWit (str "1 Nephi") []) (str "the") :=
  ⟨c8_stop_words.1 svcWit [str "the"] (str "1 Nephi") [] (str "the")
      (by decide) (by decide),
   c8_stop_words.2 svcWit (str "1 Nephi") []⟩

/-! ### C9: chapter-scoped term counting (modelled from the spec) -/

/-- C9: when a chapter reference is supplied and parses, the term count
is computed over exactly the verse subset the Exact Lookup Engine's
chapter retrieval yields, with the same tokenization and counting core;
the unscoped variant uses that same core over the book/collection scope. -/
theorem c9_reference_scoped_counting (s : Service) (terms : List Str)
    (book col reference : Str) (ig : Bool) (ref : ScriptureReference)
    (h : parseChapterReference reference = some ref) :
    countTermsWithReference s terms book col reference ig =
      some (countTokens (getChapter s ref.book ref.chapter) terms ig) ∧
    countTerms s terms book col ig =
      countTokens (scopedVerses s book col) terms ig := by
  constructor
  · unfold countTermsWithReference
    have hne : reference ≠ [] := by
      intro h0
      rw [h0] at h
      have hnil : parseChapterReference ([] : Str) = none := rfl
      rw [hnil] at h
      exact Option.noConfusion h
    rw [if_pos hne, h]
  · rfl

/-- C9 witness: a concrete chapter reference restricts the count to that
chapter's verses. -/
theorem c9_witness :
    parseChapterReference (str "1 Nephi 3") =
      some ⟨str "1 Nephi", 3, 0, 0⟩ ∧
    (countTermsWithReference svcWit [str "Lord"] [] [] (str "1 Nephi 3") true =
      some (countTokens (getChapter svcWit (str "1 Nephi") 3)
        [str "Lord"] true) ∧
     countTerms svcWit [str "Lord"] [] [] true =
      countTokens (scopedVerses svcWit [] []) [str "Lord"] true) :=
  ⟨by decide,
   c9_reference_scoped_counting svcWit [str "Lord"] [] [] (str "1 Nephi 3")
     true ⟨str "1 Nephi", 3, 0, 0⟩ (by decide)⟩

end Scriptures
